import Mathlib

set_option maxHeartbeats 1000000
set_option maxRecDepth 4096

/-!
Verification development for the AutoClipper viral-clip pipeline.

The definitions below are a shallow embedding of the analysis pipeline of
the repository: the response parser, validator, ranker and overlap resolver
of `src/server/src/services/analyzer.ts`, the transcript chunker of
`src/server/src/services/chunker.ts`, and the cancellation handling of
`src/server/src/routes/analyze.ts`.  JavaScript strings are modelled by
`String`/`List Char` (one element per UTF-16 code unit on the inputs of
interest), JavaScript numbers by `ℚ`, the built-in `JSON.parse` by an
abstract function `String → Option Json` (`none` models a thrown
`SyntaxError`), and thrown exceptions by `Except Unit`.
-/

/-- JSON values as produced by `JSON.parse` (duplicate object keys are
assumed already resolved by the parser, so `obj` field lists are looked up
by first match). -/
inductive Json where
  | null
  | bool (b : Bool)
  | num (q : ℚ)
  | str (s : String)
  | arr (elems : List Json)
  | obj (fields : List (String × Json))

/-- First-match lookup in a parsed JSON object. -/
def lookupField : List (String × Json) → String → Option Json
  | [], _ => none
  | (k, v) :: rest, name => if k = name then some v else lookupField rest name

/-- JavaScript property access `o[name]`: throws a `TypeError` on `null`
(modelled by `Except.error`), yields `undefined` (modelled by `none`) on
primitives and on missing keys. -/
def getProp : Json → String → Except Unit (Option Json)
  | .null, _ => .error ()
  | .obj fields, name => .ok (lookupField fields name)
  | _, _ => .ok none

/-- The test `typeof v === 'number'` applied to a possibly-undefined
property value. -/
def typeofNumber : Option Json → Bool
  | some (.num _) => true
  | _ => false

/-- The element filter of `parseClipsFromResponse` in `analyzer.ts`:
`typeof clip.startTime === 'number' && typeof clip.endTime === 'number' &&
typeof clip.viralScore === 'number'`.  Property access on a `null` element
throws, which propagates to the surrounding `try`. -/
def isClipCandidate (j : Json) : Except Unit Bool := do
  let a ← getProp j "startTime"
  let b ← getProp j "endTime"
  let c ← getProp j "viralScore"
  pure (typeofNumber a && typeofNumber b && typeofNumber c)

/-- `Array.prototype.filter` with a predicate that can throw: elements are
tested left to right and a thrown exception aborts the whole traversal. -/
def filterE {ε α : Type} (p : α → Except ε Bool) : List α → Except ε (List α)
  | [] => .ok []
  | x :: xs => do
    let b ← p x
    let rest ← filterE p xs
    pure (if b then x :: rest else rest)

/-- Property read used in the `.map` step of the parser; the `.map` runs
only on elements accepted by the filter, which are objects, so the total
default-`none` read agrees with JavaScript there. -/
def getPropD (j : Json) (name : String) : Option Json :=
  match j with
  | .obj fields => lookupField fields name
  | _ => none

/-- Numeric field value; the filter guarantees the field is a number on
every element this is applied to. -/
def numOr0 (v : Option Json) : ℚ :=
  match v with
  | some (.num q) => q
  | _ => 0

/-- JavaScript `v || dflt` for string-valued fields: the empty string is
falsy; non-string truthy values do not occur on the fields of interest and
are approximated by the default. -/
def strOr (v : Option Json) (dflt : String) : String :=
  match v with
  | some (.str s) => if s = "" then dflt else s
  | _ => dflt

/-- JavaScript `clip.factors?.hook || 0` and friends. -/
def factorOr0 (factors : Option Json) (name : String) : ℚ :=
  match factors with
  | some (.obj fs) => numOr0 (lookupField fs name)
  | _ => 0

/-- JavaScript `Array.isArray(v) ? v : []`. -/
def arrOrEmpty (v : Option Json) : List Json :=
  match v with
  | some (.arr xs) => xs
  | _ => []

/-- The seven-factor record built by the server parser. -/
structure ViralFactors where
  hook : ℚ
  emotion : ℚ
  controversy : ℚ
  insight : ℚ
  storytelling : ℚ
  cliffhanger : ℚ
  humor : ℚ
  deriving DecidableEq, Repr

/-- The clip record built by `parseClipsFromResponse` in `analyzer.ts`.
`hashtags` keeps the raw JSON elements the source stores unchecked. -/
structure ViralClip where
  startTime : ℚ
  endTime : ℚ
  text : String
  viralScore : ℚ
  factors : ViralFactors
  suggestedTitle : String
  hashtags : List Json
  reasoning : String

/-- JavaScript `Math.min` on two numbers. -/
def jsMin (a b : ℚ) : ℚ := if a ≤ b then a else b

/-- JavaScript `Math.max` on two numbers. -/
def jsMax (a b : ℚ) : ℚ := if a ≤ b then b else a

/-- The `.map` body of `parseClipsFromResponse`: offset correction, score
clamping via `Math.min(100, Math.max(0, viralScore))`, and defaults. -/
def mkClip (timeOffset : ℚ) (clip : Json) : ViralClip :=
  { startTime := numOr0 (getPropD clip "startTime") + timeOffset
    endTime := numOr0 (getPropD clip "endTime") + timeOffset
    text := strOr (getPropD clip "text") ""
    viralScore := jsMin 100 (jsMax 0 (numOr0 (getPropD clip "viralScore")))
    factors :=
      { hook := factorOr0 (getPropD clip "factors") "hook"
        emotion := factorOr0 (getPropD clip "factors") "emotion"
        controversy := factorOr0 (getPropD clip "factors") "controversy"
        insight := factorOr0 (getPropD clip "factors") "insight"
        storytelling := factorOr0 (getPropD clip "factors") "storytelling"
        cliffhanger := factorOr0 (getPropD clip "factors") "cliffhanger"
        humor := factorOr0 (getPropD clip "factors") "humor" }
    suggestedTitle := strOr (getPropD clip "suggestedTitle") "Untitled Clip"
    hashtags := arrOrEmpty (getPropD clip "hashtags")
    reasoning := strOr (getPropD clip "reasoning") "" }

/-- Index of the first occurrence of a character. -/
def firstIdxOf (c : Char) : List Char → Option Nat
  | [] => none
  | x :: xs => if x = c then some 0 else (firstIdxOf c xs).map (· + 1)

/-- Index of the last occurrence of a character. -/
def lastIdxOf (c : Char) (cs : List Char) : Option Nat :=
  (firstIdxOf c cs.reverse).map (fun k => cs.length - 1 - k)

/-- The greedy regex match `response.match(/\[[\s\S]*\]/)`: the substring
from the first left bracket to the last right bracket, provided the latter
comes after the former; otherwise no match. -/
def extractJsonArraySubstr (s : String) : Option String :=
  match firstIdxOf '[' s.data, lastIdxOf ']' s.data with
  | some i, some j =>
      if i < j then some (String.mk ((s.data.drop i).take (j - i + 1))) else none
  | _, _ => none

/-- `parseClipsFromResponse` from `analyzer.ts`.  `jsonParse` abstracts the
JavaScript `JSON.parse` builtin (`none` models a thrown `SyntaxError`); the
surrounding `try`/`catch` turns every thrown exception, including a
`TypeError` from filtering a `null` element, into the empty result. -/
def parseClipsFromResponse (jsonParse : String → Option Json)
    (response : String) (timeOffset : ℚ) : List ViralClip :=
  match extractJsonArraySubstr response with
  | none => []
  | some s =>
    match jsonParse s with
    | none => []
    | some parsed =>
      match parsed with
      | .arr elems =>
        match filterE isClipCandidate elems with
        | .error _ => []
        | .ok kept => kept.map (mkClip timeOffset)
      | _ => []

/-- A stand-in for `JSON.parse` that returns a fixed value; used to
instantiate theorems at concrete parse results that the real `JSON.parse`
produces on the corresponding input. -/
def jsonParseStub (v : Json) : String → Option Json := fun _ => some v

/-- The three-disjunct overlap test of `removeOverlaps` in `analyzer.ts`:
`(clip.startTime >= existing.startTime && clip.startTime < existing.endTime) ||
(clip.endTime > existing.startTime && clip.endTime <= existing.endTime) ||
(clip.startTime <= existing.startTime && clip.endTime >= existing.endTime)`. -/
def overlapsJS (clip existing : ViralClip) : Bool :=
  (decide (existing.startTime ≤ clip.startTime) && decide (clip.startTime < existing.endTime)) ||
  (decide (existing.startTime < clip.endTime) && decide (clip.endTime ≤ existing.endTime)) ||
  (decide (clip.startTime ≤ existing.startTime) && decide (existing.endTime ≤ clip.endTime))

/-- The half-open interval intersection `a.start < b.end && a.end > b.start`. -/
def halfOpenOverlap (a b : ViralClip) : Prop :=
  a.startTime < b.endTime ∧ b.startTime < a.endTime

instance (a b : ViralClip) : Decidable (halfOpenOverlap a b) := by
  unfold halfOpenOverlap; infer_instance

/-- The loop of `removeOverlaps`: `result.some(existing => ...)` then
`result.push(clip)` when no overlap is found. -/
def removeOverlapsGo (result : List ViralClip) : List ViralClip → List ViralClip
  | [] => result
  | clip :: rest =>
    if result.any (fun existing => overlapsJS clip existing) then
      removeOverlapsGo result rest
    else
      removeOverlapsGo (result ++ [clip]) rest

/-- `removeOverlaps` from `analyzer.ts`. -/
def removeOverlaps (clips : List ViralClip) : List ViralClip :=
  removeOverlapsGo [] clips

/-- The recognized analysis options (content type does not influence the
embedded pipeline). -/
structure AnalyzeOptions where
  minClipDuration : ℚ
  maxClipDuration : ℚ
  targetCount : Nat
  deriving DecidableEq, Repr

/-- The defaults of `analyzer.ts`. -/
def defaultOptions : AnalyzeOptions :=
  { minClipDuration := 15, maxClipDuration := 90, targetCount := 10 }

/-- `isValidClip` from `analyzer.ts`. -/
def isValidClip (clip : ViralClip) (options : AnalyzeOptions) : Bool :=
  decide (options.minClipDuration ≤ clip.endTime - clip.startTime) &&
  decide (clip.endTime - clip.startTime ≤ options.maxClipDuration) &&
  decide (50 ≤ clip.viralScore) &&
  decide (0 ≤ clip.startTime) &&
  decide (clip.startTime < clip.endTime)

/-- The stable descending comparison `(a, b) => b.viralScore - a.viralScore`
used by `Array.prototype.sort` (stable per the ECMAScript specification). -/
def scoreDescLe (a b : ViralClip) : Bool :=
  decide (b.viralScore ≤ a.viralScore)

/-- The ranking step of `analyzeTranscript`:
`allClips.filter(isValidClip).sort(desc score).slice(0, targetCount)`. -/
def rankClips (opts : AnalyzeOptions) (allClips : List ViralClip) : List ViralClip :=
  ((allClips.filter (fun c => isValidClip c opts)).mergeSort scoreDescLe).take opts.targetCount

/-- Splitting a list of characters at a separator character, with the
semantics of JavaScript `String.prototype.split` on a one-character
separator: the empty string yields one empty piece. -/
def splitOnChar (sep : Char) : List Char → List (List Char)
  | [] => [[]]
  | c :: cs =>
    let r := splitOnChar sep cs
    if c = sep then [] :: r
    else
      match r with
      | [] => [[c]]
      | p :: ps => (c :: p) :: ps

/-- JavaScript `String.prototype.trim`: drop whitespace from both ends. -/
def trimChars (cs : List Char) : List Char :=
  ((cs.dropWhile Char.isWhitespace).reverse.dropWhile Char.isWhitespace).reverse

/-- JavaScript `parseInt` on a non-empty run of decimal digits. -/
def digitsToNat (ds : List Char) : Nat :=
  ds.foldl (fun acc c => 10 * acc + (c.toNat - 48)) 0

/-- The timestamp pattern of `chunker.ts`: the anchored regular expression
matching a leading bracketed `[M:SS]` or `[H:MM:SS]` timecode, evaluated to
total seconds exactly as the source does (`hours*3600 + mins*60 + secs`,
with `hours = 0` when the third group is absent). -/
def parseTimestamp (line : List Char) : Option Nat :=
  match line with
  | '[' :: rest =>
    let d1 := rest.takeWhile Char.isDigit
    let r1 := rest.dropWhile Char.isDigit
    if d1 = [] then none else
    match r1 with
    | ':' :: rest2 =>
      let d2 := rest2.takeWhile Char.isDigit
      let r2 := rest2.dropWhile Char.isDigit
      if d2 = [] then none else
      match r2 with
      | ']' :: _ => some (digitsToNat d1 * 60 + digitsToNat d2)
      | ':' :: rest3 =>
        let d3 := rest3.takeWhile Char.isDigit
        let r3 := rest3.dropWhile Char.isDigit
        if d3 = [] then none else
        match r3 with
        | ']' :: _ => some (digitsToNat d1 * 3600 + digitsToNat d2 * 60 + digitsToNat d3)
        | _ => none
      | _ => none
    | _ => none
  | _ => none

/-- A chunk as produced by `chunker.ts`; `startOffset` is an integer
because the source computes `lastTimestamp - overlapSeconds`, which can be
negative. -/
structure TranscriptChunk where
  text : List Char
  startOffset : Int
  endOffset : Nat
  deriving DecidableEq, Repr

/-- The scan of `extractEndTime` in `chunker.ts` over the reversed lines. -/
def extractEndTimeAux : List (List Char) → Nat
  | [] => 0
  | l :: rest =>
    match parseTimestamp l with
    | some t => t
    | none => extractEndTimeAux rest

/-- `extractEndTime` from `chunker.ts`: the last parseable timestamp, or 0. -/
def extractEndTime (transcript : List Char) : Nat :=
  extractEndTimeAux (splitOnChar '\n' transcript).reverse

/-- The mutable state of the chunking loop in `chunkTranscript`. -/
structure ChunkState where
  currentChunk : List Char
  chunkStartTime : Int
  lastTimestamp : Nat
  overlapBuffer : List (List Char)
  chunks : List TranscriptChunk
  deriving Repr

/-- The initial loop state of `chunkTranscript`. -/
def initChunkState : ChunkState :=
  { currentChunk := [], chunkStartTime := 0, lastTimestamp := 0,
    overlapBuffer := [], chunks := [] }

/-- The `while` loop trimming the overlap buffer in `chunkTranscript`:
shift lines whose timestamp is more than `overlapSeconds` older than the
latest timestamp; stop at the first kept line or at a line without a
timestamp. -/
def trimOverlapBuffer (lastTimestamp overlapSeconds : Nat) :
    List (List Char) → List (List Char)
  | [] => []
  | first :: rest =>
    match parseTimestamp first with
    | some firstTime =>
      if (overlapSeconds : Int) < (lastTimestamp : Int) - (firstTime : Int) then
        trimOverlapBuffer lastTimestamp overlapSeconds rest
      else first :: rest
    | none => first :: rest

/-- One iteration of the `for (const line of lines)` loop of
`chunkTranscript`: update the running timestamp, close the current chunk
when appending the line would exceed `maxChars` (seeding the next chunk
from the overlap buffer), append the line, then maintain the overlap
buffer. -/
def processLine (maxChars overlapSeconds : Nat) (st : ChunkState)
    (line : List Char) : ChunkState :=
  let ts := parseTimestamp line
  let lastTimestamp := ts.getD st.lastTimestamp
  let st1 :=
    if maxChars < st.currentChunk.length + line.length + 1 ∧ 0 < st.currentChunk.length then
      { currentChunk := List.intercalate ['\n'] st.overlapBuffer ++ ['\n'],
        chunkStartTime := (lastTimestamp : Int) - (overlapSeconds : Int),
        lastTimestamp := lastTimestamp,
        overlapBuffer := [],
        chunks := st.chunks ++ [{ text := trimChars st.currentChunk,
                                  startOffset := st.chunkStartTime,
                                  endOffset := lastTimestamp }] }
    else
      { st with lastTimestamp := lastTimestamp }
  let st2 := { st1 with currentChunk := st1.currentChunk ++ line ++ ['\n'] }
  if ts.isSome ∧ 0 < lastTimestamp then
    { st2 with overlapBuffer :=
        trimOverlapBuffer lastTimestamp overlapSeconds (st2.overlapBuffer ++ [line]) }
  else st2

/-- The state after the `for (const line of lines)` loop of
`chunkTranscript` has consumed every line. -/
def chunkLoopState (transcript : List Char) (maxChars overlapSeconds : Nat) :
    ChunkState :=
  (splitOnChar '\n' transcript).foldl (processLine maxChars overlapSeconds)
    initChunkState

/-- `chunkTranscript` from `chunker.ts`. -/
def chunkTranscript (transcript : List Char) (maxChars overlapSeconds : Nat) :
    List TranscriptChunk :=
  if transcript.length ≤ maxChars then
    [{ text := transcript, startOffset := 0, endOffset := extractEndTime transcript }]
  else
    if trimChars (chunkLoopState transcript maxChars overlapSeconds).currentChunk ≠ [] then
      (chunkLoopState transcript maxChars overlapSeconds).chunks ++
        [{ text := trimChars (chunkLoopState transcript maxChars overlapSeconds).currentChunk,
           startOffset := (chunkLoopState transcript maxChars overlapSeconds).chunkStartTime,
           endOffset := (chunkLoopState transcript maxChars overlapSeconds).lastTimestamp }]
    else (chunkLoopState transcript maxChars overlapSeconds).chunks

/-- The per-chunk loop of `analyzeTranscript` in `analyzer.ts`.  `chat`
abstracts the model call for the chunk with the given index
(`Except.error` models a thrown error: backend unavailable, non-2xx, or
empty response).  The `try`/`catch` in the source swallows the error and
continues with the next chunk.  Returns the accumulated clips together
with the number of model requests issued. -/
def analyzeChunkLoopGo (jsonParse : String → Option Json)
    (chat : Nat → Except Unit String) :
    Nat → List TranscriptChunk → List ViralClip × Nat
  | _, [] => ([], 0)
  | i, chunk :: rest =>
    let clips :=
      match chat i with
      | .ok response => parseClipsFromResponse jsonParse response (chunk.startOffset : ℚ)
      | .error _ => []
    let r := analyzeChunkLoopGo jsonParse chat (i + 1) rest
    (clips ++ r.1, r.2 + 1)

/-- The chunk loop started at the first chunk. -/
def analyzeChunkLoop (jsonParse : String → Option Json)
    (chat : Nat → Except Unit String) (chunks : List TranscriptChunk) :
    List ViralClip × Nat :=
  analyzeChunkLoopGo jsonParse chat 0 chunks

/-- The outcome delivered to the HTTP caller by `routes/analyze.ts`. -/
inductive AnalyzeOutcome where
  | complete (clips : List ViralClip)
  | cancelled

/-- The final-response logic of `router.post` in `routes/analyze.ts`: after
`analyzeTranscript` finishes, the abort flag is consulted and a cancelled
analysis is reported as a cancellation, not as the clip list.  Note the
abort signal is never passed into `analyzeTranscript` itself. -/
def routeRespond (aborted : Bool) (clips : List ViralClip) : AnalyzeOutcome :=
  if aborted then .cancelled else .complete clips

/-- The whole `analyzeTranscript` pipeline of `analyzer.ts`, starting from
the formatted transcript (segment formatting happens upstream of the parts
any claim is about): chunk with the hardcoded 24000-character budget and
30-second overlap, run the per-chunk loop, filter and rank, take the top
`targetCount`, and resolve overlaps. -/
def analyzeTranscriptPipeline (jsonParse : String → Option Json)
    (chat : Nat → Except Unit String) (opts : AnalyzeOptions)
    (transcript : List Char) : List ViralClip :=
  removeOverlaps (rankClips opts
    (analyzeChunkLoop jsonParse chat (chunkTranscript transcript 24000 30)).1)

/-- Rank followed by overlap resolution, the post-processing tail of
`analyzeTranscript`. -/
def rankDedupe (opts : AnalyzeOptions) (clips : List ViralClip) : List ViralClip :=
  removeOverlaps (rankClips opts clips)

/-- A value is a JSON number exactly when `typeof v === 'number'` holds. -/
theorem typeofNumber_eq_true_iff (v : Option Json) :
    typeofNumber v = true ↔ ∃ q : ℚ, v = some (Json.num q) := by
  cases v with
  | none => simp [typeofNumber]
  | some j => cases j <;> simp [typeofNumber]

/-- C1: the response parser never throws; it always returns a list, and
returns the empty list whenever no bracketed substring can be located in
the raw text or the located substring does not parse as a JSON array. -/
theorem parseClips_robust (jsonParse : String → Option Json)
    (response : String) (timeOffset : ℚ) :
    (extractJsonArraySubstr response = none →
      parseClipsFromResponse jsonParse response timeOffset = []) ∧
    (∀ s, extractJsonArraySubstr response = some s →
      (∀ elems, jsonParse s ≠ some (Json.arr elems)) →
      parseClipsFromResponse jsonParse response timeOffset = []) := by
  constructor
  · intro h
    unfold parseClipsFromResponse
    rw [h]
  · intro s hs hn
    cases hjp : jsonParse s with
    | none => simp [parseClipsFromResponse, hs, hjp]
    | some v =>
      cases v with
      | arr elems => exact absurd hjp (hn elems)
      | null => simp [parseClipsFromResponse, hs, hjp]
      | bool b => simp [parseClipsFromResponse, hs, hjp]
      | num q => simp [parseClipsFromResponse, hs, hjp]
      | str t => simp [parseClipsFromResponse, hs, hjp]
      | obj fields => simp [parseClipsFromResponse, hs, hjp]

/-- Witness for `parseClips_robust` at a concrete malformed input. -/
theorem parseClips_robust_witness :
    extractJsonArraySubstr "garbage" = none ∧
    parseClipsFromResponse (fun _ => none) "garbage" 0 = [] :=
  ⟨by decide, (parseClips_robust (fun _ => none) "garbage" 0).1 (by decide)⟩

/-- C2 counterexample: the element filter requires `typeof === 'number'`,
so an element whose `startTime`, `endTime` and `viralScore` are the numeric
strings "10", "20", "80" is discarded, not coerced.  The stub returns
exactly the value `JSON.parse` produces on the corresponding response
text. -/
theorem parseClips_numericString_discarded_cex :
    parseClipsFromResponse
      (jsonParseStub (Json.arr [Json.obj
        [("startTime", Json.str "10"), ("endTime", Json.str "20"),
         ("viralScore", Json.str "80")]]))
      "[s]" 0 = [] := by
  rfl

/-- C2 amended: the parser keeps exactly the elements accepted by the
`typeof === 'number'` filter, and an element is accepted only when all
three of `startTime`, `endTime`, `viralScore` are JSON numbers; numeric
strings are not coerced and elements carrying them are discarded. -/
theorem parseClips_requires_number_fields :
    (∀ (jsonParse : String → Option Json) (response : String) (timeOffset : ℚ)
       (s : String) (elems kept : List Json),
       extractJsonArraySubstr response = some s →
       jsonParse s = some (Json.arr elems) →
       filterE isClipCandidate elems = .ok kept →
       parseClipsFromResponse jsonParse response timeOffset =
         kept.map (mkClip timeOffset)) ∧
    (∀ j : Json, isClipCandidate j = .ok true ↔
       ((∃ a : ℚ, getProp j "startTime" = .ok (some (Json.num a))) ∧
        (∃ b : ℚ, getProp j "endTime" = .ok (some (Json.num b))) ∧
        (∃ c : ℚ, getProp j "viralScore" = .ok (some (Json.num c))))) := by
  constructor
  · intro jsonParse response timeOffset s elems kept hs hjp hf
    simp [parseClipsFromResponse, hs, hjp, hf]
  · intro j
    unfold isClipCandidate
    cases ha : getProp j "startTime" with
    | error e => simp [ha, Bind.bind, Except.bind]
    | ok a =>
      cases hb : getProp j "endTime" with
      | error e => simp [ha, hb, Bind.bind, Except.bind]
      | ok b =>
        cases hc : getProp j "viralScore" with
        | error e => simp [ha, hb, hc, Bind.bind, Except.bind]
        | ok c =>
          simp [ha, hb, hc, Bind.bind, Except.bind, pure, Except.pure,
            typeofNumber_eq_true_iff, and_assoc]

/-- A parsed element whose three time and score fields are JSON numbers. -/
def numFieldsElem : Json :=
  Json.obj [("startTime", Json.num 10), ("endTime", Json.num 20),
            ("viralScore", Json.num 80)]

/-- Witness for `parseClips_requires_number_fields` at a concrete
response. -/
theorem parseClips_requires_number_fields_witness :
    (extractJsonArraySubstr "[s]" = some "[s]" ∧
     jsonParseStub (Json.arr [numFieldsElem]) "[s]" = some (Json.arr [numFieldsElem]) ∧
     filterE isClipCandidate [numFieldsElem] = .ok [numFieldsElem]) ∧
    parseClipsFromResponse (jsonParseStub (Json.arr [numFieldsElem])) "[s]" 0 =
      [numFieldsElem].map (mkClip 0) :=
  ⟨⟨by decide, rfl, rfl⟩,
   parseClips_requires_number_fields.1 (jsonParseStub (Json.arr [numFieldsElem]))
     "[s]" 0 "[s]" [numFieldsElem] [numFieldsElem] (by decide) rfl rfl⟩

/-- The JavaScript overlap test agrees with the half-open intersection test
on well-formed clips (positive duration). -/
theorem overlapsJS_iff (c e : ViralClip) (hc : c.startTime < c.endTime)
    (he : e.startTime < e.endTime) :
    overlapsJS c e = true ↔ halfOpenOverlap c e := by
  unfold overlapsJS halfOpenOverlap
  simp only [Bool.or_eq_true, Bool.and_eq_true, decide_eq_true_eq]
  constructor
  · rintro ((⟨h1, h2⟩ | ⟨h1, h2⟩) | ⟨h1, h2⟩) <;> exact ⟨by linarith, by linarith⟩
  · rintro ⟨h1, h2⟩
    rcases le_or_lt e.startTime c.startTime with h | h
    · exact Or.inl (Or.inl ⟨h, h1⟩)
    · rcases le_or_lt e.endTime c.endTime with h3 | h3
      · exact Or.inr ⟨le_of_lt h, h3⟩
      · exact Or.inl (Or.inr ⟨h2, le_of_lt h3⟩)

/-- The accumulator of the overlap-resolver loop is kept as a prefix and
the loop appends a sublist of its input. -/
theorem removeOverlapsGo_eq_append (l : List ViralClip) :
    ∀ acc, ∃ kept, kept.Sublist l ∧ removeOverlapsGo acc l = acc ++ kept := by
  induction l with
  | nil =>
    intro acc
    exact ⟨[], List.Sublist.refl _, by simp [removeOverlapsGo]⟩
  | cons c rest ih =>
    intro acc
    by_cases h : (acc.any fun existing => overlapsJS c existing) = true
    · obtain ⟨kept, hs, he⟩ := ih acc
      exact ⟨kept, hs.cons c, by rw [removeOverlapsGo, if_pos h, he]⟩
    · obtain ⟨kept, hs, he⟩ := ih (acc ++ [c])
      exact ⟨c :: kept, hs.cons₂ c,
        by rw [removeOverlapsGo, if_neg h, he, List.append_assoc]; rfl⟩

/-- Elements accepted by the overlap-resolver loop never overlap an
earlier accepted element, in the JavaScript test's orientation. -/
theorem removeOverlapsGo_pairwise (l : List ViralClip) :
    ∀ acc, acc.Pairwise (fun a b => overlapsJS b a = false) →
      (removeOverlapsGo acc l).Pairwise (fun a b => overlapsJS b a = false) := by
  induction l with
  | nil =>
    intro acc hacc
    simpa [removeOverlapsGo] using hacc
  | cons c rest ih =>
    intro acc hacc
    by_cases h : (acc.any fun existing => overlapsJS c existing) = true
    · rw [removeOverlapsGo, if_pos h]
      exact ih acc hacc
    · rw [removeOverlapsGo, if_neg h]
      apply ih
      rw [List.pairwise_append]
      refine ⟨hacc, List.pairwise_singleton _ _, ?_⟩
      intro a ha b hb
      rw [List.mem_singleton] at hb
      subst hb
      rcases Bool.eq_false_or_eq_true (overlapsJS b a) with ht | hf
      · exact absurd (List.any_eq_true.mpr ⟨a, ha, ht⟩) h
      · exact hf

/-- Every input clip is either accepted by the overlap-resolver loop or
overlaps (in the JavaScript test) some clip of the final result. -/
theorem removeOverlapsGo_mem_or_overlap (l : List ViralClip) :
    ∀ acc c, c ∈ l →
      c ∈ removeOverlapsGo acc l ∨
      ∃ r ∈ removeOverlapsGo acc l, overlapsJS c r = true := by
  induction l with
  | nil => simp
  | cons x rest ih =>
    intro acc c hc
    by_cases h : (acc.any fun existing => overlapsJS x existing) = true
    · rw [removeOverlapsGo, if_pos h]
      rcases List.mem_cons.mp hc with rfl | hc'
      · right
        rw [List.any_eq_true] at h
        obtain ⟨r, hr, hor⟩ := h
        obtain ⟨kept, _, he⟩ := removeOverlapsGo_eq_append rest acc
        exact ⟨r, by rw [he]; exact List.mem_append_left _ hr, hor⟩
      · exact ih acc c hc'
    · rw [removeOverlapsGo, if_neg h]
      rcases List.mem_cons.mp hc with rfl | hc'
      · left
        obtain ⟨kept, _, he⟩ := removeOverlapsGo_eq_append rest (acc ++ [c])
        rw [he]
        exact List.mem_append_left _ (List.mem_append_right _ (List.mem_singleton_self c))
      · exact ih (acc ++ [x]) c hc'

/-- A clip with given times and score and default metadata; used to
instantiate theorems at concrete inputs. -/
def simpleClip (s e v : ℚ) : ViralClip :=
  { startTime := s, endTime := e, text := "", viralScore := v,
    factors := ⟨0, 0, 0, 0, 0, 0, 0⟩, suggestedTitle := "",
    hashtags := [], reasoning := "" }

/-- C3: on well-formed input, `removeOverlaps` returns a subset of its
input in which no two clips intersect under the half-open test, and every
excluded input clip intersects at least one clip of the result — a maximal
non-overlapping subset with respect to the input's iteration order. -/
theorem removeOverlaps_maximal_nonoverlapping (clips : List ViralClip)
    (hwf : ∀ c ∈ clips, c.startTime < c.endTime) :
    (removeOverlaps clips).Sublist clips ∧
    (removeOverlaps clips).Pairwise (fun a b => ¬ halfOpenOverlap a b) ∧
    (∀ c ∈ clips, c ∈ removeOverlaps clips ∨
       ∃ r ∈ removeOverlaps clips, halfOpenOverlap c r) := by
  have hsub : (removeOverlaps clips).Sublist clips := by
    obtain ⟨kept, hs, he⟩ := removeOverlapsGo_eq_append clips []
    rw [removeOverlaps, he]
    simpa using hs
  have hmem : ∀ c ∈ removeOverlaps clips, c ∈ clips := fun c hc => hsub.subset hc
  refine ⟨hsub, ?_, ?_⟩
  · have hp := removeOverlapsGo_pairwise clips [] List.Pairwise.nil
    rw [removeOverlaps] at hmem ⊢
    refine List.Pairwise.imp_of_mem ?_ hp
    intro a b ha hb hR hov
    have hba : overlapsJS b a = true :=
      (overlapsJS_iff b a (hwf b (hmem b hb)) (hwf a (hmem a ha))).mpr ⟨hov.2, hov.1⟩
    rw [hR] at hba
    exact Bool.false_ne_true hba
  · intro c hc
    rcases removeOverlapsGo_mem_or_overlap clips [] c hc with h | ⟨r, hr, hor⟩
    · exact Or.inl h
    · exact Or.inr ⟨r, hr,
        (overlapsJS_iff c r (hwf c hc) (hwf r (hmem r hr))).mp hor⟩

/-- Witness for `removeOverlaps_maximal_nonoverlapping` at the reference
clip set of the specification. -/
theorem removeOverlaps_maximal_nonoverlapping_witness :
    (∀ c ∈ [simpleClip 0 10 90, simpleClip 5 15 80, simpleClip 20 30 70],
       c.startTime < c.endTime) ∧
    ((removeOverlaps [simpleClip 0 10 90, simpleClip 5 15 80, simpleClip 20 30 70]).Sublist
       [simpleClip 0 10 90, simpleClip 5 15 80, simpleClip 20 30 70] ∧
     (removeOverlaps [simpleClip 0 10 90, simpleClip 5 15 80, simpleClip 20 30 70]).Pairwise
       (fun a b => ¬ halfOpenOverlap a b) ∧
     (∀ c ∈ [simpleClip 0 10 90, simpleClip 5 15 80, simpleClip 20 30 70],
        c ∈ removeOverlaps [simpleClip 0 10 90, simpleClip 5 15 80, simpleClip 20 30 70] ∨
        ∃ r ∈ removeOverlaps [simpleClip 0 10 90, simpleClip 5 15 80, simpleClip 20 30 70],
          halfOpenOverlap c r)) :=
  ⟨by decide,
   removeOverlaps_maximal_nonoverlapping
     [simpleClip 0 10 90, simpleClip 5 15 80, simpleClip 20 30 70] (by decide)⟩

/-- The chunk loop issues one model request per chunk, whatever the chat
outcomes are. -/
theorem analyzeChunkLoopGo_requests (jsonParse : String → Option Json)
    (chat : Nat → Except Unit String) :
    ∀ (chunks : List TranscriptChunk) (i : Nat),
      (analyzeChunkLoopGo jsonParse chat i chunks).2 = chunks.length := by
  intro chunks
  induction chunks with
  | nil => intro i; rfl
  | cons c rest ih =>
    intro i
    simp only [analyzeChunkLoopGo, List.length_cons]
    rw [ih (i + 1)]

/-- C6 counterexample: on a three-chunk analysis the loop issues three
model requests.  `analyzeTranscript` receives no cancellation signal at
all (the route's `AbortController` is consulted only after the loop
finishes), so triggering cancel after chunk 1 cannot stop the remaining
chunk requests — contradicting the claim that no further requests are
issued. -/
theorem cancellation_requests_cex :
    (analyzeChunkLoop (fun _ => none) (fun _ => Except.ok "x")
      [{ text := [], startOffset := 0, endOffset := 0 },
       { text := [], startOffset := 10, endOffset := 0 },
       { text := [], startOffset := 20, endOffset := 0 }]).2 = 3 := by
  rfl

/-- C6 amended: cancellation does not stop the chunk loop — one model
request is issued per chunk regardless of the abort flag, which is not an
input of the loop; the route consults the flag only after the analysis
completes and then delivers the explicit cancellation outcome instead of
the clips. -/
theorem cancellation_after_loop (jsonParse : String → Option Json)
    (chat : Nat → Except Unit String) (chunks : List TranscriptChunk)
    (clips : List ViralClip) :
    (analyzeChunkLoop jsonParse chat chunks).2 = chunks.length ∧
    routeRespond true clips = .cancelled :=
  ⟨analyzeChunkLoopGo_requests jsonParse chat chunks 0, rfl⟩

/-- A successfully analyzed chunk contributes its parsed clips to the
accumulated result, wherever it sits in the list and whatever the other
chunks' outcomes are. -/
theorem analyzeChunkLoopGo_ok_contrib (jsonParse : String → Option Json)
    (chat : Nat → Except Unit String) :
    ∀ (chunks : List TranscriptChunk) (i0 k : Nat) (chunk : TranscriptChunk)
      (r : String),
      chunks[k]? = some chunk → chat (i0 + k) = .ok r →
      ∃ pre post, (analyzeChunkLoopGo jsonParse chat i0 chunks).1 =
        pre ++ parseClipsFromResponse jsonParse r (chunk.startOffset : ℚ) ++ post := by
  intro chunks
  induction chunks with
  | nil =>
    intro i0 k chunk r hk
    simp at hk
  | cons c rest ih =>
    intro i0 k chunk r hk hok
    cases k with
    | zero =>
      rw [List.getElem?_cons_zero, Option.some.injEq] at hk
      subst hk
      rw [Nat.add_zero] at hok
      refine ⟨[], (analyzeChunkLoopGo jsonParse chat (i0 + 1) rest).1, ?_⟩
      simp only [analyzeChunkLoopGo, hok, List.nil_append]
    | succ k' =>
      rw [List.getElem?_cons_succ] at hk
      have hok' : chat ((i0 + 1) + k') = .ok r := by
        rw [show (i0 + 1) + k' = i0 + (k' + 1) by omega]
        exact hok
      obtain ⟨pre, post, heq⟩ := ih (i0 + 1) k' chunk r hk hok'
      refine ⟨(match chat i0 with
               | .ok response => parseClipsFromResponse jsonParse response (c.startOffset : ℚ)
               | .error _ => []) ++ pre, post, ?_⟩
      simp only [analyzeChunkLoopGo, heq, List.append_assoc]

/-- C7: a thrown model call for one chunk is not propagated by
`analyzeTranscript`: the loop continues with the remaining chunks and the
accumulated result still contains the clips parsed from every successful
chunk. -/
theorem analyzeTranscript_chunk_error_nonfatal (jsonParse : String → Option Json)
    (chat : Nat → Except Unit String) (chunks : List TranscriptChunk)
    (k : Nat) (chunk : TranscriptChunk) (r : String)
    (hk : chunks[k]? = some chunk) (hok : chat k = .ok r) :
    ∃ pre post, (analyzeChunkLoop jsonParse chat chunks).1 =
      pre ++ parseClipsFromResponse jsonParse r (chunk.startOffset : ℚ) ++ post :=
  analyzeChunkLoopGo_ok_contrib jsonParse chat chunks 0 k chunk r hk
    (by rw [Nat.zero_add]; exact hok)

/-- Witness for `analyzeTranscript_chunk_error_nonfatal`: the first chunk's
model call throws, the second succeeds and its clips survive. -/
theorem analyzeTranscript_chunk_error_nonfatal_witness :
    ([{ text := [], startOffset := 0, endOffset := 0 },
      { text := [], startOffset := 5, endOffset := 0 }] :
        List TranscriptChunk)[1]? =
      some { text := [], startOffset := 5, endOffset := 0 } ∧
    (fun i => if i = 0 then (Except.error () : Except Unit String)
              else Except.ok "[s]") 1 = Except.ok "[s]" ∧
    ∃ pre post,
      (analyzeChunkLoop (jsonParseStub (Json.arr [numFieldsElem]))
        (fun i => if i = 0 then Except.error () else Except.ok "[s]")
        [{ text := [], startOffset := 0, endOffset := 0 },
         { text := [], startOffset := 5, endOffset := 0 }]).1 =
      pre ++ parseClipsFromResponse (jsonParseStub (Json.arr [numFieldsElem])) "[s]"
        (((5 : Int) : ℚ)) ++ post :=
  ⟨rfl, rfl,
   analyzeTranscript_chunk_error_nonfatal (jsonParseStub (Json.arr [numFieldsElem]))
     (fun i => if i = 0 then Except.error () else Except.ok "[s]")
     [{ text := [], startOffset := 0, endOffset := 0 },
      { text := [], startOffset := 5, endOffset := 0 }]
     1 { text := [], startOffset := 5, endOffset := 0 } "[s]" rfl rfl⟩

/-- Every clip built by the parser has its score clamped into [0, 100]. -/
theorem parseClips_score_bounds (jsonParse : String → Option Json)
    (response : String) (timeOffset : ℚ) (c : ViralClip)
    (hc : c ∈ parseClipsFromResponse jsonParse response timeOffset) :
    0 ≤ c.viralScore ∧ c.viralScore ≤ 100 := by
  unfold parseClipsFromResponse at hc
  split at hc
  · simp at hc
  · split at hc
    · simp at hc
    · split at hc
      · split at hc
        · simp at hc
        · rcases List.mem_map.mp hc with ⟨e, _, rfl⟩
          show 0 ≤ jsMin 100 (jsMax 0 _) ∧ jsMin 100 (jsMax 0 _) ≤ 100
          unfold jsMin jsMax
          constructor <;> split_ifs <;> linarith
      · simp at hc

/-- Every clip accumulated by the chunk loop has its score in [0, 100]. -/
theorem analyzeChunkLoopGo_score_bounds (jsonParse : String → Option Json)
    (chat : Nat → Except Unit String) :
    ∀ (chunks : List TranscriptChunk) (i : Nat) (c : ViralClip),
      c ∈ (analyzeChunkLoopGo jsonParse chat i chunks).1 →
      0 ≤ c.viralScore ∧ c.viralScore ≤ 100 := by
  intro chunks
  induction chunks with
  | nil =>
    intro i c hc
    simp [analyzeChunkLoopGo] at hc
  | cons ch rest ih =>
    intro i c hc
    simp only [analyzeChunkLoopGo] at hc
    rcases List.mem_append.mp hc with h | h
    · cases hcall : chat i with
      | ok r =>
        rw [hcall] at h
        exact parseClips_score_bounds jsonParse r _ c h
      | error e =>
        rw [hcall] at h
        simp at h
    · exact ih (i + 1) c h

/-- The overlap resolver returns a sublist of its input. -/
theorem removeOverlaps_sublist (l : List ViralClip) :
    (removeOverlaps l).Sublist l := by
  obtain ⟨kept, hs, he⟩ := removeOverlapsGo_eq_append l []
  rw [removeOverlaps, he]
  simpa using hs

/-- The ranking step only selects clips from its input. -/
theorem rankClips_subset (opts : AnalyzeOptions) (allClips : List ViralClip)
    (c : ViralClip) (hc : c ∈ rankClips opts allClips) : c ∈ allClips := by
  unfold rankClips at hc
  have h1 := List.mem_of_mem_take hc
  rw [List.mem_mergeSort] at h1
  exact List.mem_of_mem_filter h1

/-- The element used to exercise score clamping. -/
def clampElem (v : ℚ) : Json :=
  Json.obj [("startTime", Json.num 0), ("endTime", Json.num 30),
            ("viralScore", Json.num v)]

/-- C8: the parser clamps `viralScore` into [0, 100] — a score of 150 is
stored as 100 and a score of -5 as 0 — and since the validator and the
overlap resolver never modify clips, every clip of the final pipeline
output has 0 <= viralScore <= 100. -/
theorem viralScore_clamped_invariant :
    (parseClipsFromResponse (jsonParseStub (Json.arr [clampElem 150])) "[s]" 0).map
        ViralClip.viralScore = [100] ∧
    (parseClipsFromResponse (jsonParseStub (Json.arr [clampElem (-5)])) "[s]" 0).map
        ViralClip.viralScore = [0] ∧
    ∀ (jsonParse : String → Option Json) (chat : Nat → Except Unit String)
      (opts : AnalyzeOptions) (transcript : List Char) (c : ViralClip),
      c ∈ analyzeTranscriptPipeline jsonParse chat opts transcript →
      0 ≤ c.viralScore ∧ c.viralScore ≤ 100 := by
  refine ⟨by rfl, by rfl, ?_⟩
  intro jsonParse chat opts transcript c hc
  unfold analyzeTranscriptPipeline at hc
  have h1 := (removeOverlaps_sublist _).subset hc
  have h2 := rankClips_subset opts _ c h1
  exact analyzeChunkLoopGo_score_bounds jsonParse chat _ 0 c h2

/-- Witness for `viralScore_clamped_invariant`: a concrete pipeline run
whose single surviving clip arrived with score 150 and is stored clamped
to 100. -/
theorem viralScore_clamped_invariant_witness :
    mkClip 0 (clampElem 150) ∈
      analyzeTranscriptPipeline (jsonParseStub (Json.arr [clampElem 150]))
        (fun _ => Except.ok "[s]") defaultOptions "t".data ∧
    (0 ≤ (mkClip 0 (clampElem 150)).viralScore ∧
     (mkClip 0 (clampElem 150)).viralScore ≤ 100) :=
  have hm : mkClip 0 (clampElem 150) ∈
      analyzeTranscriptPipeline (jsonParseStub (Json.arr [clampElem 150]))
        (fun _ => Except.ok "[s]") defaultOptions "t".data := by
    have hloop : (analyzeChunkLoop (jsonParseStub (Json.arr [clampElem 150]))
        (fun _ => Except.ok "[s]") (chunkTranscript "t".data 24000 30)).1 =
        [mkClip 0 (clampElem 150)] := rfl
    unfold analyzeTranscriptPipeline rankClips
    rw [hloop]
    simp only [List.filter_cons, List.filter_nil]
    rw [if_pos (show isValidClip (mkClip 0 (clampElem 150)) defaultOptions = true from
          by norm_num [isValidClip, mkClip, clampElem, defaultOptions, numOr0,
            getPropD, lookupField, jsMin, jsMax,
            show ("startTime" : String) ≠ "endTime" from by decide,
            show ("startTime" : String) ≠ "viralScore" from by decide,
            show ("endTime" : String) ≠ "viralScore" from by decide])]
    rw [List.mergeSort_singleton]
    rw [show List.take defaultOptions.targetCount [mkClip 0 (clampElem 150)] =
          [mkClip 0 (clampElem 150)] from rfl]
    rw [show removeOverlaps [mkClip 0 (clampElem 150)] =
          [mkClip 0 (clampElem 150)] from rfl]
    exact List.mem_singleton_self _
  ⟨hm, viralScore_clamped_invariant.2.2 (jsonParseStub (Json.arr [clampElem 150]))
    (fun _ => Except.ok "[s]") defaultOptions "t".data (mkClip 0 (clampElem 150)) hm⟩

/-- On an input that is already pairwise non-overlapping (in the
JavaScript test's orientation) and clear of the accumulator, the
overlap-resolver loop accepts everything. -/
theorem removeOverlapsGo_of_no_overlap (l : List ViralClip) :
    ∀ acc, (∀ c ∈ l, ∀ r ∈ acc, overlapsJS c r = false) →
      l.Pairwise (fun a b => overlapsJS b a = false) →
      removeOverlapsGo acc l = acc ++ l := by
  induction l with
  | nil => intro acc _ _; simp [removeOverlapsGo]
  | cons c rest ih =>
    intro acc hacc hpw
    have hany : (acc.any fun existing => overlapsJS c existing) = true → False := by
      intro h
      obtain ⟨r, hr, hor⟩ := List.any_eq_true.mp h
      rw [hacc c (List.mem_cons_self c rest) r hr] at hor
      exact Bool.false_ne_true hor
    rw [removeOverlapsGo, if_neg hany]
    rw [ih (acc ++ [c]) ?_ (List.Pairwise.sublist (List.sublist_cons_self c rest) hpw)]
    · rw [List.append_assoc]
      rfl
    · intro d hd r hr
      rcases List.mem_append.mp hr with h | h
      · exact hacc d (List.mem_cons_of_mem c hd) r h
      · rw [List.mem_singleton] at h
        subst h
        exact (List.pairwise_cons.mp hpw).1 d hd

/-- Running the overlap resolver on a list it could have produced changes
nothing. -/
theorem removeOverlaps_of_pairwise (l : List ViralClip)
    (h : l.Pairwise (fun a b => overlapsJS b a = false)) :
    removeOverlaps l = l := by
  rw [removeOverlaps, removeOverlapsGo_of_no_overlap l [] (by simp) h]
  rfl

/-- The output of the overlap resolver is pairwise non-overlapping in the
JavaScript test's orientation. -/
theorem removeOverlaps_pairwiseJS (l : List ViralClip) :
    (removeOverlaps l).Pairwise (fun a b => overlapsJS b a = false) :=
  removeOverlapsGo_pairwise l [] List.Pairwise.nil

/-- The score comparison is transitive. -/
theorem scoreDescLe_trans (a b c : ViralClip) :
    scoreDescLe a b → scoreDescLe b c → scoreDescLe a c := by
  simp only [scoreDescLe, decide_eq_true_eq]
  intro h1 h2
  linarith

/-- The score comparison is total. -/
theorem scoreDescLe_total (a b : ViralClip) :
    scoreDescLe a b || scoreDescLe b a := by
  simp only [scoreDescLe, Bool.or_eq_true, decide_eq_true_eq]
  exact le_total _ _

/-- C9: rank followed by dedupe is idempotent — re-running the validator
filter, the stable descending sort, the `targetCount` truncation and the
overlap resolver on their own output returns it unchanged. -/
theorem rankDedupe_idempotent (opts : AnalyzeOptions) (clips : List ViralClip) :
    rankDedupe opts (rankDedupe opts clips) = rankDedupe opts clips := by
  set L := rankDedupe opts clips with hL
  have hsubTake : L.Sublist
      (((clips.filter (fun c => isValidClip c opts)).mergeSort scoreDescLe).take
        opts.targetCount) := by
    rw [hL, rankDedupe, rankClips]
    exact removeOverlaps_sublist _
  have hvalid : ∀ c ∈ L, isValidClip c opts := by
    intro c hc
    have h1 := (hsubTake.subset) hc
    have h2 := List.mem_of_mem_take h1
    rw [List.mem_mergeSort] at h2
    exact (List.mem_filter.mp h2).2
  have hsorted : L.Pairwise (fun a b => scoreDescLe a b = true) := by
    refine List.Pairwise.sublist (hsubTake.trans (List.take_sublist _ _)) ?_
    exact List.sorted_mergeSort
      (fun a b c => scoreDescLe_trans a b c) (fun a b => scoreDescLe_total a b) _
  have hlen : L.length ≤ opts.targetCount := by
    have h1 := hsubTake.length_le
    have h2 := List.length_take_le opts.targetCount
      ((clips.filter (fun c => isValidClip c opts)).mergeSort scoreDescLe)
    omega
  have hpwJS : L.Pairwise (fun a b => overlapsJS b a = false) := by
    rw [hL, rankDedupe]
    exact removeOverlaps_pairwiseJS _
  rw [rankDedupe, rankClips]
  rw [List.filter_eq_self.mpr hvalid]
  rw [List.mergeSort_of_sorted hsorted]
  rw [List.take_of_length_le hlen]
  exact removeOverlaps_of_pairwise L hpwJS

/-- Splitting never yields an empty list of pieces. -/
theorem splitOnChar_ne_nil (sep : Char) (l : List Char) :
    splitOnChar sep l ≠ [] := by
  induction l with
  | nil => simp [splitOnChar]
  | cons c cs ih =>
    rw [splitOnChar]
    by_cases h : c = sep
    · simp [h]
    · simp only [h, if_false]
      cases hr : splitOnChar sep cs with
      | nil => simp
      | cons p ps => simp

/-- Pieces produced by splitting do not contain the separator. -/
theorem splitOnChar_not_mem (sep : Char) (l : List Char) :
    ∀ p ∈ splitOnChar sep l, sep ∉ p := by
  induction l with
  | nil =>
    intro p hp
    rw [splitOnChar, List.mem_singleton] at hp
    subst hp
    exact List.not_mem_nil sep
  | cons c cs ih =>
    intro p hp
    rw [splitOnChar] at hp
    by_cases h : c = sep
    · rw [if_pos h, List.mem_cons] at hp
      rcases hp with rfl | hp
      · exact List.not_mem_nil sep
      · exact ih p hp
    · rw [if_neg h] at hp
      cases hr : splitOnChar sep cs with
      | nil => exact absurd hr (splitOnChar_ne_nil sep cs)
      | cons q qs =>
        rw [hr] at hp
        rw [List.mem_cons] at hp
        rcases hp with rfl | hp
        · intro hmem
          rcases List.mem_cons.mp hmem with hceq | hq
          · exact h hceq.symm
          · exact ih q (hr ▸ List.mem_cons_self q qs) hq
        · exact ih p (hr ▸ List.mem_cons_of_mem q hp)

/-- Every non-separator character of the input occurs in some piece. -/
theorem splitOnChar_exists_mem (sep : Char) (l : List Char) :
    ∀ x ∈ l, x ≠ sep → ∃ p ∈ splitOnChar sep l, x ∈ p := by
  induction l with
  | nil => simp
  | cons c cs ih =>
    intro x hx hxsep
    rw [splitOnChar]
    by_cases h : c = sep
    · rw [if_pos h]
      rcases List.mem_cons.mp hx with rfl | hx'
      · exact absurd h hxsep
      · obtain ⟨p, hp, hxp⟩ := ih x hx' hxsep
        exact ⟨p, List.mem_cons_of_mem [] hp, hxp⟩
    · rw [if_neg h]
      cases hr : splitOnChar sep cs with
      | nil => exact absurd hr (splitOnChar_ne_nil sep cs)
      | cons q qs =>
        rcases List.mem_cons.mp hx with rfl | hx'
        · exact ⟨x :: q, List.mem_cons_self _ _, List.mem_cons_self x q⟩
        · obtain ⟨p, hp, hxp⟩ := ih x hx' hxsep
          rw [hr] at hp
          rcases List.mem_cons.mp hp with rfl | hp'
          · exact ⟨c :: p, List.mem_cons_self _ _, List.mem_cons_of_mem c hxp⟩
          · exact ⟨p, List.mem_cons_of_mem _ hp', hxp⟩

/-- Trimming never lengthens a string. -/
theorem trimChars_length_le (l : List Char) :
    (trimChars l).length ≤ l.length := by
  unfold trimChars
  calc ((l.dropWhile Char.isWhitespace).reverse.dropWhile Char.isWhitespace).reverse.length
      = ((l.dropWhile Char.isWhitespace).reverse.dropWhile Char.isWhitespace).length := by
        rw [List.length_reverse]
    _ ≤ (l.dropWhile Char.isWhitespace).reverse.length :=
        (List.dropWhile_sublist _).length_le
    _ = (l.dropWhile Char.isWhitespace).length := by rw [List.length_reverse]
    _ ≤ l.length := (List.dropWhile_sublist _).length_le

/-- Trimming only returns characters of the input. -/
theorem trimChars_subset (l : List Char) : ∀ x ∈ trimChars l, x ∈ l := by
  intro x hx
  unfold trimChars at hx
  rw [List.mem_reverse] at hx
  have h1 := (List.dropWhile_sublist _).subset hx
  rw [List.mem_reverse] at h1
  exact (List.dropWhile_sublist _).subset h1

/-- A leading whitespace character is trimmed away. -/
theorem trimChars_cons_ws (c : Char) (l : List Char)
    (hc : c.isWhitespace = true) : trimChars (c :: l) = trimChars l := by
  unfold trimChars
  rw [List.dropWhile_cons, if_pos hc]

/-- A trailing whitespace character is trimmed away. -/
theorem trimChars_append_ws (c : Char) (hc : c.isWhitespace = true) :
    ∀ l : List Char, trimChars (l ++ [c]) = trimChars l := by
  intro l
  induction l with
  | nil =>
    simp only [List.nil_append]
    unfold trimChars
    rw [List.dropWhile_cons, if_pos hc]
  | cons a l ih =>
    by_cases ha : a.isWhitespace = true
    · rw [List.cons_append, trimChars_cons_ws a _ ha, trimChars_cons_ws a _ ha]
      exact ih
    · unfold trimChars
      rw [List.cons_append, List.dropWhile_cons, if_neg ha,
          List.dropWhile_cons, if_neg ha]
      rw [List.reverse_cons, List.reverse_cons, List.reverse_append]
      simp only [List.reverse_cons, List.reverse_nil, List.nil_append,
        List.cons_append]
      rw [List.dropWhile_cons, if_pos hc]

/-- If trimming deletes everything, the input was all whitespace. -/
theorem trimChars_eq_nil (l : List Char) (h : trimChars l = []) :
    ∀ x ∈ l, x.isWhitespace = true := by
  intro x hx
  unfold trimChars at h
  rw [List.reverse_eq_nil_iff, List.dropWhile_eq_nil_iff] at h
  have h2 : ∀ y ∈ l.dropWhile Char.isWhitespace, y.isWhitespace = true := by
    intro y hy
    exact h y (List.mem_reverse.mpr hy)
  rcases List.mem_append.mp
    ((List.takeWhile_append_dropWhile Char.isWhitespace l) ▸ hx) with h3 | h3
  · exact List.mem_takeWhile_imp h3
  · exact h2 x h3

/-- On a line with no parseable timestamp, one loop iteration either
closes the current chunk (when the budget would be exceeded) or just
appends the line; the overlap buffer is not touched. -/
theorem processLine_no_ts (maxChars ov : Nat) (st : ChunkState) (line : List Char)
    (hline : parseTimestamp line = none) :
    processLine maxChars ov st line =
      if maxChars < st.currentChunk.length + line.length + 1 ∧
          0 < st.currentChunk.length then
        { currentChunk := (List.intercalate ['\n'] st.overlapBuffer ++ ['\n']) ++
            line ++ ['\n'],
          chunkStartTime := (st.lastTimestamp : Int) - (ov : Int),
          lastTimestamp := st.lastTimestamp,
          overlapBuffer := [],
          chunks := st.chunks ++ [{ text := trimChars st.currentChunk,
                                    startOffset := st.chunkStartTime,
                                    endOffset := st.lastTimestamp }] }
      else { st with currentChunk := st.currentChunk ++ line ++ ['\n'] } := by
  unfold processLine
  rw [hline]
  simp only [Option.getD_none, Option.isSome_none]
  by_cases h : maxChars < st.currentChunk.length + line.length + 1 ∧
      0 < st.currentChunk.length
  · rw [if_pos h, if_pos h, if_neg (by simp)]
  · rw [if_neg h, if_neg h, if_neg (by simp)]

/-- The loop invariant for transcripts without parseable timestamps: the
overlap buffer stays empty, the (trimmed) current chunk is within budget
or newline-free, and every emitted chunk is within budget or newline-free. -/
def ChunkInv (maxChars : Nat) (st : ChunkState) : Prop :=
  st.overlapBuffer = [] ∧
  ((trimChars st.currentChunk).length ≤ maxChars ∨ '\n' ∉ trimChars st.currentChunk) ∧
  (∀ ch ∈ st.chunks, ch.text.length ≤ maxChars ∨ '\n' ∉ ch.text)

/-- One timestamp-free iteration preserves the invariant. -/
theorem processLine_preserves_inv (maxChars ov : Nat) (st : ChunkState)
    (line : List Char) (hline : parseTimestamp line = none)
    (hnl : '\n' ∉ line) (hinv : ChunkInv maxChars st) :
    ChunkInv maxChars (processLine maxChars ov st line) := by
  obtain ⟨hbuf, hcur, hchunks⟩ := hinv
  rw [processLine_no_ts maxChars ov st line hline]
  by_cases h : maxChars < st.currentChunk.length + line.length + 1 ∧
      0 < st.currentChunk.length
  · rw [if_pos h]
    refine ⟨rfl, ?_, ?_⟩
    · right
      rw [hbuf]
      show ('\n' : Char) ∉ trimChars (([] ++ ['\n']) ++ line ++ ['\n'])
      have hshape : (([] ++ ['\n']) ++ line ++ ['\n'] : List Char) =
          '\n' :: (line ++ ['\n']) := by simp
      rw [hshape, trimChars_cons_ws '\n' (line ++ ['\n']) (by decide),
        trimChars_append_ws '\n' (by decide) line]
      intro hmem
      exact hnl (trimChars_subset line '\n' hmem)
    · intro ch hch
      rcases List.mem_append.mp hch with h1 | h1
      · exact hchunks ch h1
      · rw [List.mem_singleton] at h1
        subst h1
        exact hcur
  · rw [if_neg h]
    refine ⟨hbuf, ?_, hchunks⟩
    rcases Decidable.not_and_iff_or_not.mp h with h1 | h1
    · left
      have hlen : st.currentChunk.length + line.length + 1 ≤ maxChars :=
        Nat.le_of_not_lt h1
      calc (trimChars (st.currentChunk ++ line ++ ['\n'])).length
          ≤ (st.currentChunk ++ line ++ ['\n']).length :=
            trimChars_length_le _
        _ = st.currentChunk.length + line.length + 1 := by
            simp only [List.length_append, List.length_cons, List.length_nil]
        _ ≤ maxChars := hlen
    · right
      have hcc : st.currentChunk = [] :=
        List.length_eq_zero.mp (Nat.eq_zero_of_not_pos h1)
      rw [hcc, List.nil_append, trimChars_append_ws '\n' (by decide) line]
      intro hmem
      exact hnl (trimChars_subset line '\n' hmem)

/-- The invariant holds after folding over any list of timestamp-free,
newline-free lines. -/
theorem chunkLoop_inv (maxChars ov : Nat) (lines : List (List Char))
    (hts : ∀ l ∈ lines, parseTimestamp l = none)
    (hnl : ∀ l ∈ lines, '\n' ∉ l) :
    ∀ st, ChunkInv maxChars st →
      ChunkInv maxChars (lines.foldl (processLine maxChars ov) st) := by
  induction lines with
  | nil => intro st h; exact h
  | cons l rest ih =>
    intro st h
    rw [List.foldl_cons]
    exact ih (fun x hx => hts x (List.mem_cons_of_mem l hx))
      (fun x hx => hnl x (List.mem_cons_of_mem l hx))
      (processLine maxChars ov st l)
      (processLine_preserves_inv maxChars ov st l
        (hts l (List.mem_cons_self l rest)) (hnl l (List.mem_cons_self l rest)) h)

/-- C4 counterexample: with a 10-character budget the transcript
`"[0:01] ab\n[0:01] cd\nbb"` produces a chunk of 19 characters — over the
budget — consisting of two lines of 9 characters each, because the new
chunk was seeded from the overlap buffer; no single line exceeds the
budget, contradicting the claimed exception. -/
theorem chunkTranscript_size_bound_cex :
    ∃ ch ∈ chunkTranscript ("[0:01] ab\n[0:01] cd\nbb".data) 10 30,
      10 < ch.text.length ∧ ∀ l ∈ splitOnChar '\n' ch.text, l.length ≤ 10 := by
  decide

/-- C4 amended: chunks can exceed `maxChars` when they are seeded from the
timestamp overlap buffer; when no line of the transcript carries a
parseable timestamp (so the overlap buffer stays empty), the original
bound holds — every chunk fits in `maxChars` except a chunk made of a
single line, which is the only way a lone oversized line can be emitted,
and the loop still terminates with the line kept. -/
theorem chunkTranscript_size_bound_noTimestamps (t : List Char)
    (maxChars ov : Nat)
    (hts : ∀ l ∈ splitOnChar '\n' t, parseTimestamp l = none) :
    ∀ ch ∈ chunkTranscript t maxChars ov,
      ch.text.length ≤ maxChars ∨ '\n' ∉ ch.text := by
  intro ch hch
  unfold chunkTranscript at hch
  by_cases hlen : t.length ≤ maxChars
  · rw [if_pos hlen, List.mem_singleton] at hch
    subst hch
    exact Or.inl hlen
  · rw [if_neg hlen] at hch
    have hnl : ∀ l ∈ splitOnChar '\n' t, ('\n' : Char) ∉ l :=
      splitOnChar_not_mem '\n' t
    have hinv : ChunkInv maxChars (chunkLoopState t maxChars ov) :=
      chunkLoop_inv maxChars ov (splitOnChar '\n' t) hts hnl initChunkState
        ⟨rfl, Or.inl (by simp [trimChars, initChunkState]),
         by simp [initChunkState]⟩
    obtain ⟨hbuf, hcur, hchunks⟩ := hinv
    by_cases htr : trimChars (chunkLoopState t maxChars ov).currentChunk ≠ []
    · rw [if_pos htr] at hch
      rcases List.mem_append.mp hch with h | h
      · exact hchunks ch h
      · rw [List.mem_singleton] at h
        subst h
        exact hcur
    · rw [if_neg htr] at hch
      exact hchunks ch hch

/-- Witness for `chunkTranscript_size_bound_noTimestamps` on a concrete
timestamp-free transcript split with a 5-character budget. -/
theorem chunkTranscript_size_bound_noTimestamps_witness :
    (∀ l ∈ splitOnChar '\n' ("aaaa\nbbbb\ncc".data), parseTimestamp l = none) ∧
    (∀ ch ∈ chunkTranscript ("aaaa\nbbbb\ncc".data) 5 30,
       ch.text.length ≤ 5 ∨ '\n' ∉ ch.text) :=
  ⟨by decide,
   chunkTranscript_size_bound_noTimestamps ("aaaa\nbbbb\ncc".data) 5 30 (by decide)⟩

/-- One loop iteration either leaves the emitted chunks untouched and
appends the line to the current chunk, or closes a chunk. -/
theorem processLine_chunks_cases (mc ov : Nat) (st : ChunkState) (line : List Char) :
    ((processLine mc ov st line).chunks = st.chunks ∧
     (processLine mc ov st line).currentChunk = st.currentChunk ++ line ++ ['\n']) ∨
    ∃ ch, (processLine mc ov st line).chunks = st.chunks ++ [ch] := by
  simp only [processLine]
  by_cases h : mc < st.currentChunk.length + line.length + 1 ∧
      0 < st.currentChunk.length
  · rw [if_pos h]
    by_cases h2 : (parseTimestamp line).isSome = true ∧
        0 < (parseTimestamp line).getD st.lastTimestamp
    · rw [if_pos h2]
      exact Or.inr ⟨_, rfl⟩
    · rw [if_neg h2]
      exact Or.inr ⟨_, rfl⟩
  · rw [if_neg h]
    by_cases h2 : (parseTimestamp line).isSome = true ∧
        0 < (parseTimestamp line).getD st.lastTimestamp
    · rw [if_pos h2]
      exact Or.inl ⟨rfl, rfl⟩
    · rw [if_neg h2]
      exact Or.inl ⟨rfl, rfl⟩

/-- The chunks already emitted are kept (as a prefix) by the rest of the
loop. -/
theorem foldl_chunks_extend (mc ov : Nat) :
    ∀ (lines : List (List Char)) (st : ChunkState),
      ∃ extra, (lines.foldl (processLine mc ov) st).chunks = st.chunks ++ extra := by
  intro lines
  induction lines with
  | nil => intro st; exact ⟨[], by simp⟩
  | cons l rest ih =>
    intro st
    rw [List.foldl_cons]
    obtain ⟨extra, hex⟩ := ih (processLine mc ov st l)
    rcases processLine_chunks_cases mc ov st l with ⟨hch, _⟩ | ⟨ch, hch⟩
    · exact ⟨extra, by rw [hex, hch]⟩
    · exact ⟨ch :: extra, by rw [hex, hch]; simp⟩

/-- If the loop never closed a chunk, every character that went in is
still in the current chunk at the end. -/
theorem foldl_nil_chunks_content (mc ov : Nat) :
    ∀ (lines : List (List Char)) (st : ChunkState),
      (lines.foldl (processLine mc ov) st).chunks = [] →
      (∀ x ∈ st.currentChunk, x ∈ (lines.foldl (processLine mc ov) st).currentChunk) ∧
      (∀ l ∈ lines, ∀ x ∈ l, x ∈ (lines.foldl (processLine mc ov) st).currentChunk) := by
  intro lines
  induction lines with
  | nil =>
    intro st _
    exact ⟨fun x hx => hx, by simp⟩
  | cons l rest ih =>
    intro st hnil
    rw [List.foldl_cons] at hnil ⊢
    rcases processLine_chunks_cases mc ov st l with ⟨hch, hcc⟩ | ⟨ch, hch⟩
    · have hstep := ih (processLine mc ov st l) hnil
      refine ⟨?_, ?_⟩
      · intro x hx
        exact hstep.1 x (by
          rw [hcc]
          exact List.mem_append_left _ (List.mem_append_left _ hx))
      · intro l' hl' x hx
        rcases List.mem_cons.mp hl' with rfl | hl''
        · exact hstep.1 x (by
            rw [hcc]
            exact List.mem_append_left _ (List.mem_append_right _ hx))
        · exact hstep.2 l' hl'' x hx
    · obtain ⟨extra, hex⟩ := foldl_chunks_extend mc ov rest (processLine mc ov st l)
      rw [hex, hch] at hnil
      simp at hnil

/-- C5 amended: `chunkTranscript` indeed has no failure path, but the
empty transcript yields one chunk with empty text rather than the empty
list; any transcript within the budget yields exactly one chunk, and any
longer transcript containing a non-whitespace character yields at least
one chunk (a long all-whitespace transcript, however, can yield none). -/
theorem chunkTranscript_no_failure :
    (∀ (t : List Char) (maxChars ov : Nat), t.length ≤ maxChars →
       chunkTranscript t maxChars ov =
         [{ text := t, startOffset := 0, endOffset := extractEndTime t }]) ∧
    (∀ (t : List Char) (maxChars ov : Nat),
       (∃ c ∈ t, c.isWhitespace = false) → chunkTranscript t maxChars ov ≠ []) := by
  constructor
  · intro t mc ov h
    unfold chunkTranscript
    rw [if_pos h]
  · rintro t mc ov ⟨c, hc, hws⟩
    unfold chunkTranscript
    by_cases hlen : t.length ≤ mc
    · rw [if_pos hlen]
      simp
    · rw [if_neg hlen]
      by_cases htr : trimChars (chunkLoopState t mc ov).currentChunk ≠ []
      · rw [if_pos htr]
        simp
      · rw [if_neg htr]
        intro hnil
        unfold chunkLoopState at htr hnil
        have hcontent := foldl_nil_chunks_content mc ov (splitOnChar '\n' t)
          initChunkState hnil
        have hcne : c ≠ '\n' := by
          intro hceq
          rw [hceq] at hws
          exact Bool.false_ne_true
            (hws.symm.trans (by decide : ('\n' : Char).isWhitespace = true))
        obtain ⟨p, hp, hcp⟩ := splitOnChar_exists_mem '\n' t c hc hcne
        have hmem := hcontent.2 p hp c hcp
        have hcws := trimChars_eq_nil _ (not_not.mp htr) c hmem
        rw [hws] at hcws
        exact Bool.false_ne_true hcws

/-- C5 counterexample: the empty transcript yields one chunk with empty
text, not the empty list. -/
theorem chunkTranscript_empty_cex :
    chunkTranscript [] 24000 30 =
      [{ text := [], startOffset := 0, endOffset := 0 }] := by
  decide

/-- Witness for `chunkTranscript_no_failure` at a concrete short
transcript. -/
theorem chunkTranscript_no_failure_witness :
    (("ab".data.length ≤ 24000) ∧
     chunkTranscript "ab".data 24000 30 =
       [{ text := "ab".data, startOffset := 0,
          endOffset := extractEndTime "ab".data }]) ∧
    ((∃ c ∈ "ab".data, c.isWhitespace = false) ∧
     chunkTranscript "ab".data 24000 30 ≠ []) :=
  ⟨⟨by decide, chunkTranscript_no_failure.1 "ab".data 24000 30 (by decide)⟩,
   ⟨by decide, chunkTranscript_no_failure.2 "ab".data 24000 30 (by decide)⟩⟩

/-- C10: a transcript longer than `maxChars` whose first buffer overflow
happens while the last parsed timestamp (1 second) is smaller than the
30-second overlap gets a chunk with negative `startOffset`
(`lastTimestamp - overlapSeconds` = -29), so callers cannot assume chunk
offsets are non-negative. -/
theorem chunkTranscript_negative_startOffset :
    ∃ ch ∈ chunkTranscript ("[0:01] ab\n[0:01] cd\nbb".data) 10 30,
      ch.startOffset < 0 := by
  decide
